import Mathlib

set_option autoImplicit false

/-!
Shallow embedding of the `pinned_bucket` crate: `PinnedList` (a lock-guarded
vector of pinned boxes), `PinnedMap` (a lock-guarded `BTreeMap` of pinned
boxes plus a shadow list in lenient mode), and the snapshot iterators
`Iter`, `Keys`, `Values`.  Heap allocation is modelled by an abstract
allocator counter `σ`: every `Box::pin` call hands out a fresh address and
the counter never decreases, so distinct allocations have distinct
addresses.  Lock acquisition always succeeds in the sequential semantics;
panics are modelled with `Except`.
-/

namespace PinnedBucket

universe u

/-- A pinned, heap-allocated holder of one value — the embedding of
`Pin<Box<T>>`.  `addr` is the allocation's address; the abstract allocator
never hands it out twice. -/
structure Cell (V : Type u) where
  addr : Nat
  val : V
deriving DecidableEq

/-- Pin each element of a list into a fresh box, handing out consecutive
fresh addresses starting at `σ`. -/
def allocCells {V : Type u} (σ : Nat) : List V → List (Cell V) × Nat
  | [] => ([], σ)
  | v :: vs =>
    let r := allocCells (σ + 1) vs
    (⟨σ, v⟩ :: r.1, r.2)

/-- Embedding of `PinnedList<T>`: the index vector of handles to cells,
with the vector's advisory capacity. -/
structure PinnedList (T : Type u) where
  sections : List (Cell T)
  capacity : Nat
deriving DecidableEq

namespace PinnedList

/-- `PinnedList::new` -/
def new (T : Type u) : PinnedList T := ⟨[], 0⟩

/-- `PinnedList::with_capacity` -/
def with_capacity (T : Type u) (n : Nat) : PinnedList T := ⟨[], n⟩

/-- `PinnedList::len` -/
def len {T : Type u} (l : PinnedList T) : Nat := l.sections.length

/-- Capacity after a `Vec::push`: reallocate (amortized doubling) only when
the vector is full. -/
def growCap (cap n : Nat) : Nat :=
  if n < cap then cap else max (2 * cap) (n + 1)

/-- Capacity after a `Vec::extend` of `n` more elements. -/
def growCapBy (cap len n : Nat) : Nat :=
  if len + n ≤ cap then cap else max (2 * cap) (len + n)

/-- `PinnedList::push`: box the value, append the handle, return the
reference into the box. -/
def push {T : Type u} (l : PinnedList T) (t : T) (σ : Nat) :
    Cell T × PinnedList T × Nat :=
  (⟨σ, t⟩, ⟨l.sections ++ [⟨σ, t⟩], growCap l.capacity l.sections.length⟩, σ + 1)

/-- `PinnedList::extend`: box every value, append all handles under one
write-lock acquisition, and return the references to the freshly appended
tail in insertion order. -/
def extend {T : Type u} (l : PinnedList T) (ts : List T) (σ : Nat) :
    List (Cell T) × PinnedList T × Nat :=
  let r := allocCells σ ts
  (r.1, ⟨l.sections ++ r.1, growCapBy l.capacity l.sections.length ts.length⟩, r.2)

/-- `Index::index` on `PinnedList` (`None` models the out-of-bounds panic). -/
def index {T : Type u} (l : PinnedList T) (i : Nat) : Option (Cell T) :=
  l.sections[i]?

/-- `Clone::clone` on `PinnedList`: every box is cloned into a fresh
allocation holding a copy of the value. -/
def clone {T : Type u} (l : PinnedList T) (σ : Nat) : PinnedList T × Nat :=
  let r := allocCells σ (l.sections.map Cell.val)
  (⟨r.1, r.1.length⟩, r.2)

/-- Allocator well-formedness: every live cell was handed out before `σ`. -/
def WF {T : Type u} (l : PinnedList T) (σ : Nat) : Prop :=
  ∀ c ∈ l.sections, c.addr < σ

end PinnedList

/-- One mutating call on a `PinnedList`. -/
inductive ListOp (T : Type u) where
  | push (t : T)
  | extend (ts : List T)

/-- All values appended by a sequence of list operations, in order. -/
def appended {T : Type u} : List (ListOp T) → List T
  | [] => []
  | .push t :: ops => t :: appended ops
  | .extend ts :: ops => ts ++ appended ops

/-- Run a sequence of mutating calls on a `PinnedList`, threading the
allocator. -/
def runList {T : Type u} (l : PinnedList T) (σ : Nat) :
    List (ListOp T) → PinnedList T × Nat
  | [] => (l, σ)
  | .push t :: ops =>
    let r := l.push t σ
    runList r.2.1 r.2.2 ops
  | .extend ts :: ops =>
    let r := l.extend ts σ
    runList r.2.1 r.2.2 ops

theorem allocCells_snd {V : Type u} (σ : Nat) (vs : List V) :
    (allocCells σ vs).2 = σ + vs.length := by
  induction vs generalizing σ with
  | nil => simp [allocCells]
  | cons v vs ih => simp [allocCells, ih]; omega

theorem allocCells_append {V : Type u} (σ : Nat) (vs ws : List V) :
    (allocCells σ (vs ++ ws)).1 =
      (allocCells σ vs).1 ++ (allocCells (σ + vs.length) ws).1 := by
  induction vs generalizing σ with
  | nil => simp [allocCells]
  | cons v vs ih =>
    simp [allocCells, ih]
    have : σ + 1 + vs.length = σ + (vs.length + 1) := by omega
    rw [this]

theorem allocCells_map_val {V : Type u} (σ : Nat) (vs : List V) :
    (allocCells σ vs).1.map Cell.val = vs := by
  induction vs generalizing σ with
  | nil => simp [allocCells]
  | cons v vs ih => simp [allocCells, ih]

theorem allocCells_length {V : Type u} (σ : Nat) (vs : List V) :
    (allocCells σ vs).1.length = vs.length := by
  have := allocCells_map_val σ vs
  have h := congrArg List.length this
  simpa using h

theorem mem_allocCells_addr {V : Type u} {σ : Nat} {vs : List V} {c : Cell V} :
    c ∈ (allocCells σ vs).1 → σ ≤ c.addr := by
  induction vs generalizing σ with
  | nil => simp [allocCells]
  | cons v vs ih =>
    intro h
    simp [allocCells] at h
    rcases h with h | h
    · subst h; exact Nat.le_refl _
    · exact Nat.le_of_lt (Nat.lt_of_lt_of_le (Nat.lt_succ_self σ) (ih h))

theorem runList_sections {T : Type u} (l : PinnedList T) (σ : Nat)
    (ops : List (ListOp T)) :
    (runList l σ ops).1.sections = l.sections ++ (allocCells σ (appended ops)).1 ∧
      (runList l σ ops).2 = σ + (appended ops).length := by
  induction ops generalizing l σ with
  | nil => simp [runList, appended, allocCells]
  | cons op ops ih =>
    cases op with
    | push t =>
      have h := ih ⟨l.sections ++ [⟨σ, t⟩],
        PinnedList.growCap l.capacity l.sections.length⟩ (σ + 1)
      refine ⟨?_, ?_⟩
      · rw [show runList l σ (.push t :: ops) =
          runList ⟨l.sections ++ [⟨σ, t⟩],
            PinnedList.growCap l.capacity l.sections.length⟩ (σ + 1) ops from rfl]
        rw [h.1]
        simp [appended, allocCells]
      · rw [show runList l σ (.push t :: ops) =
          runList ⟨l.sections ++ [⟨σ, t⟩],
            PinnedList.growCap l.capacity l.sections.length⟩ (σ + 1) ops from rfl]
        rw [h.2]
        simp [appended]; omega
    | extend ts =>
      have h := ih ⟨l.sections ++ (allocCells σ ts).1,
        PinnedList.growCapBy l.capacity l.sections.length ts.length⟩
        (allocCells σ ts).2
      refine ⟨?_, ?_⟩
      · rw [show runList l σ (.extend ts :: ops) =
          runList ⟨l.sections ++ (allocCells σ ts).1,
            PinnedList.growCapBy l.capacity l.sections.length ts.length⟩
            (allocCells σ ts).2 ops from rfl]
        rw [h.1]
        simp [appended, allocCells_append, allocCells_snd]
      · rw [show runList l σ (.extend ts :: ops) =
          runList ⟨l.sections ++ (allocCells σ ts).1,
            PinnedList.growCapBy l.capacity l.sections.length ts.length⟩
            (allocCells σ ts).2 ops from rfl]
        rw [h.2]
        simp [appended, allocCells_snd]; omega

/-- Panic message of a strict-mode duplicate insert (`map.rs`). -/
def dupKeyMsg : String := "internal error: duplicated key"

/-- Panic raised by a user thunk inside `get_or_insert_with`; the message is
the thunk's own. -/
def thunkPanicMsg : String := "thunk panicked"

section Map

variable {K : Type u} {V : Type u} [LinearOrder K]

/-- `BTreeMap::insert` on the sorted association list: returns the new list
and the previous cell bound to the key, if any. -/
def btreeInsert (k : K) (c : Cell V) :
    List (K × Cell V) → List (K × Cell V) × Option (Cell V)
  | [] => ([(k, c)], none)
  | (k', c') :: rest =>
    if k < k' then ((k, c) :: (k', c') :: rest, none)
    else if k = k' then ((k, c) :: rest, some c')
    else
      let r := btreeInsert k c rest
      ((k', c') :: r.1, r.2)

/-- `BTreeMap::get` on the sorted association list. -/
def btreeGet (k : K) : List (K × Cell V) → Option (Cell V)
  | [] => none
  | (k', c') :: rest =>
    if k < k' then none
    else if k = k' then some c'
    else btreeGet k rest

/-- `BTreeMap::entry(k).or_insert(c)` on the sorted association list:
returns the new list, the cell the entry resolves to, and whether a fresh
insertion happened. -/
def btreeEntryOrInsert (k : K) (c : Cell V) :
    List (K × Cell V) → List (K × Cell V) × Cell V × Bool
  | [] => ([(k, c)], c, true)
  | (k', c') :: rest =>
    if k < k' then ((k, c) :: (k', c') :: rest, c, true)
    else if k = k' then ((k', c') :: rest, c', false)
    else
      let r := btreeEntryOrInsert k c rest
      ((k', c') :: r.1, r.2)

/-- `BTreeMap::entry(k).or_insert_with(|| Box::pin(default()))` where the
thunk `default` either panics (`none`) or produces a value (`some v`).
Returns the result of the call (or the propagated panic), the association
list as left behind, the allocator, and how many times the thunk ran. -/
def btreeOrInsertWith (k : K) (default : Option V) (σ : Nat) :
    List (K × Cell V) → (Except String (Cell V) × List (K × Cell V) × Nat) × Nat
  | [] =>
    match default with
    | none => ((.error thunkPanicMsg, [], σ), 1)
    | some v => ((.ok ⟨σ, v⟩, [(k, ⟨σ, v⟩)], σ + 1), 1)
  | (k', c') :: rest =>
    if k < k' then
      match default with
      | none => ((.error thunkPanicMsg, (k', c') :: rest, σ), 1)
      | some v => ((.ok ⟨σ, v⟩, (k, ⟨σ, v⟩) :: (k', c') :: rest, σ + 1), 1)
    else if k = k' then ((.ok c', (k', c') :: rest, σ), 0)
    else
      let r := btreeOrInsertWith k default σ rest
      ((r.1.1, (k', c') :: r.1.2.1, r.1.2.2), r.2)

/-- Embedding of `PinnedMap<K, V>`: the key-sorted index of handles and the
shadow list of superseded cells (present only in the lenient build; a
strict-mode map simply never touches it). -/
structure PinnedMap (K : Type u) (V : Type u) where
  sections : List (K × Cell V)
  shadowed : List (Cell V)
deriving DecidableEq

end Map

namespace PinnedMap

variable {K : Type u} {V : Type u} [LinearOrder K]

/-- `PinnedMap::new` -/
def new (K : Type u) (V : Type u) : PinnedMap K V := ⟨[], []⟩

/-- `PinnedMap::len`: only the live index is counted, never the shadow
list. -/
def len (m : PinnedMap K V) : Nat := m.sections.length

/-- `PinnedMap::insert`, parameterized by the `strict` build configuration.
The value is boxed, the index entry inserted; a pre-existing binding is a
panic in strict mode and is pushed onto the shadow list in lenient mode.
The returned triple is (call result or panic, map state left behind,
allocator). -/
def insert (strict : Bool) (m : PinnedMap K V) (k : K) (v : V) (σ : Nat) :
    Except String (Cell V) × PinnedMap K V × Nat :=
  match (btreeInsert k (⟨σ, v⟩ : Cell V) m.sections).2 with
  | none =>
    (.ok ⟨σ, v⟩, ⟨(btreeInsert k (⟨σ, v⟩ : Cell V) m.sections).1, m.shadowed⟩, σ + 1)
  | some p =>
    if strict then
      (.error dupKeyMsg,
        ⟨(btreeInsert k (⟨σ, v⟩ : Cell V) m.sections).1, m.shadowed⟩, σ + 1)
    else
      (.ok ⟨σ, v⟩,
        ⟨(btreeInsert k (⟨σ, v⟩ : Cell V) m.sections).1, m.shadowed ++ [p]⟩, σ + 1)

/-- `PinnedMap::get` -/
def get (m : PinnedMap K V) (k : K) : Option (Cell V) :=
  btreeGet k m.sections

/-- `PinnedMap::get_or_insert`: the argument box is allocated eagerly (the
allocator always advances) and dropped if the key is occupied. -/
def get_or_insert (m : PinnedMap K V) (k : K) (v : V) (σ : Nat) :
    Cell V × PinnedMap K V × Nat :=
  ((btreeEntryOrInsert k (⟨σ, v⟩ : Cell V) m.sections).2.1,
    ⟨(btreeEntryOrInsert k (⟨σ, v⟩ : Cell V) m.sections).1, m.shadowed⟩, σ + 1)

/-- `PinnedMap::get_or_insert_with`: the thunk (modelled as `none` for a
panicking thunk, `some v` for one producing `v`) runs only when the key is
vacant.  Returns ((result, map state, allocator), thunk-run count). -/
def get_or_insert_with (m : PinnedMap K V) (k : K) (default : Option V)
    (σ : Nat) : (Except String (Cell V) × PinnedMap K V × Nat) × Nat :=
  (((btreeOrInsertWith k default σ m.sections).1.1,
    ⟨(btreeOrInsertWith k default σ m.sections).1.2.1, m.shadowed⟩,
    (btreeOrInsertWith k default σ m.sections).1.2.2),
   (btreeOrInsertWith k default σ m.sections).2)

/-- Clone the index: keys are copied, every box is cloned into a fresh
allocation. -/
def cloneSections (σ : Nat) :
    List (K × Cell V) → List (K × Cell V) × Nat
  | [] => ([], σ)
  | (k, c) :: rest =>
    let r := cloneSections (σ + 1) rest
    ((k, ⟨σ, c.val⟩) :: r.1, r.2)

/-- `Clone::clone` on `PinnedMap`: the index is cloned cell by cell; the
shadow list of the clone starts empty. -/
def clone (m : PinnedMap K V) (σ : Nat) : PinnedMap K V × Nat :=
  let r := cloneSections σ m.sections
  (⟨r.1, []⟩, r.2)

/-- Key-order invariant of the `BTreeMap` index. -/
def SortedKeys (m : PinnedMap K V) : Prop :=
  List.Pairwise (fun a b => a.1 < b.1) m.sections

/-- Allocator well-formedness: every live cell was handed out before `σ`. -/
def WFAddr (m : PinnedMap K V) (σ : Nat) : Prop :=
  ∀ p ∈ m.sections, p.2.addr < σ

end PinnedMap

/-- Run a sequence of (lenient-mode) inserts on a `PinnedMap`, threading the
allocator. -/
def runMap {K : Type u} {V : Type u} [LinearOrder K]
    (m : PinnedMap K V) (σ : Nat) : List (K × V) → PinnedMap K V × Nat
  | [] => (m, σ)
  | (k, v) :: ops =>
    let r := m.insert false k v σ
    runMap r.2.1 r.2.2 ops

section BtreeLemmas

variable {K : Type u} {V : Type u} [LinearOrder K]

theorem btreeInsert_snd (k : K) (c : Cell V) (l : List (K × Cell V)) :
    (btreeInsert k c l).2 = btreeGet k l := by
  induction l with
  | nil => simp [btreeInsert, btreeGet]
  | cons p rest ih =>
    obtain ⟨k', c'⟩ := p
    by_cases h1 : k < k'
    · simp [btreeInsert, btreeGet, h1]
    · by_cases h2 : k = k'
      · simp [btreeInsert, btreeGet, h1, h2]
      · simp [btreeInsert, btreeGet, h1, h2, ih]

theorem btreeGet_btreeInsert_self (k : K) (c : Cell V) (l : List (K × Cell V)) :
    btreeGet k (btreeInsert k c l).1 = some c := by
  induction l with
  | nil => simp [btreeInsert, btreeGet]
  | cons p rest ih =>
    obtain ⟨k', c'⟩ := p
    by_cases h1 : k < k'
    · simp [btreeInsert, btreeGet, h1]
    · by_cases h2 : k = k'
      · simp [btreeInsert, btreeGet, h1, h2]
      · simp [btreeInsert, btreeGet, h1, h2, ih]

theorem btreeGet_btreeInsert_ne {k k₀ : K} (hne : k₀ ≠ k) (c : Cell V)
    (l : List (K × Cell V)) :
    btreeGet k₀ (btreeInsert k c l).1 = btreeGet k₀ l := by
  induction l with
  | nil => simp [btreeInsert, btreeGet, hne]
  | cons p rest ih =>
    obtain ⟨k', c'⟩ := p
    by_cases h1 : k < k'
    · by_cases g1 : k₀ < k
      · have hk' : k₀ < k' := lt_trans g1 h1
        simp [btreeInsert, btreeGet, h1, g1, hk']
      · simp [btreeInsert, btreeGet, h1, g1, hne]
    · by_cases h2 : k = k'
      · subst h2
        by_cases g1 : k₀ < k
        · simp [btreeInsert, btreeGet, h1, g1]
        · simp [btreeInsert, btreeGet, h1, g1, hne]
      · by_cases g1 : k₀ < k'
        · simp [btreeInsert, btreeGet, h1, h2, g1]
        · by_cases g2 : k₀ = k'
          · simp [btreeInsert, btreeGet, h1, h2, g1, g2]
          · simp [btreeInsert, btreeGet, h1, h2, g1, g2, ih]

theorem btreeInsert_length_present {k : K} {c₀ : Cell V} {l : List (K × Cell V)}
    (h : btreeGet k l = some c₀) (c : Cell V) :
    (btreeInsert k c l).1.length = l.length := by
  induction l with
  | nil => simp [btreeGet] at h
  | cons p rest ih =>
    obtain ⟨k', c'⟩ := p
    by_cases h1 : k < k'
    · simp [btreeGet, h1] at h
    · by_cases h2 : k = k'
      · simp [btreeInsert, h1, h2]
      · simp [btreeGet, h1, h2] at h
        simp [btreeInsert, h1, h2, ih h]

theorem btreeEntryOrInsert_present {k : K} {c : Cell V} {l : List (K × Cell V)}
    (h : btreeGet k l = some c) (c₀ : Cell V) :
    btreeEntryOrInsert k c₀ l = (l, c, false) := by
  induction l with
  | nil => simp [btreeGet] at h
  | cons p rest ih =>
    obtain ⟨k', c'⟩ := p
    by_cases h1 : k < k'
    · simp [btreeGet, h1] at h
    · by_cases h2 : k = k'
      · simp [btreeGet, h1, h2] at h
        simp [btreeEntryOrInsert, h1, h2, h]
      · simp [btreeGet, h1, h2] at h
        simp [btreeEntryOrInsert, h1, h2, ih h]

theorem btreeEntryOrInsert_absent {k : K} {l : List (K × Cell V)}
    (h : btreeGet k l = none) (c₀ : Cell V) :
    btreeEntryOrInsert k c₀ l = ((btreeInsert k c₀ l).1, c₀, true) := by
  induction l with
  | nil => simp [btreeEntryOrInsert, btreeInsert]
  | cons p rest ih =>
    obtain ⟨k', c'⟩ := p
    by_cases h1 : k < k'
    · simp [btreeEntryOrInsert, btreeInsert, h1]
    · by_cases h2 : k = k'
      · simp [btreeGet, h1, h2] at h
      · simp [btreeGet, h1, h2] at h
        simp [btreeEntryOrInsert, btreeInsert, h1, h2, ih h]

theorem btreeOrInsertWith_present {k : K} {c : Cell V} {l : List (K × Cell V)}
    (h : btreeGet k l = some c) (d : Option V) (σ : Nat) :
    btreeOrInsertWith k d σ l = ((.ok c, l, σ), 0) := by
  induction l with
  | nil => simp [btreeGet] at h
  | cons p rest ih =>
    obtain ⟨k', c'⟩ := p
    by_cases h1 : k < k'
    · simp [btreeGet, h1] at h
    · by_cases h2 : k = k'
      · simp [btreeGet, h1, h2] at h
        simp [btreeOrInsertWith, h1, h2, h]
      · simp [btreeGet, h1, h2] at h
        simp [btreeOrInsertWith, h1, h2, ih h]

theorem btreeOrInsertWith_absent_some {k : K} {l : List (K × Cell V)}
    (h : btreeGet k l = none) (v : V) (σ : Nat) :
    btreeOrInsertWith k (some v) σ l =
      ((.ok ⟨σ, v⟩, (btreeInsert k (⟨σ, v⟩ : Cell V) l).1, σ + 1), 1) := by
  induction l with
  | nil => simp [btreeOrInsertWith, btreeInsert]
  | cons p rest ih =>
    obtain ⟨k', c'⟩ := p
    by_cases h1 : k < k'
    · simp [btreeOrInsertWith, btreeInsert, h1]
    · by_cases h2 : k = k'
      · simp [btreeGet, h1, h2] at h
      · simp [btreeGet, h1, h2] at h
        simp [btreeOrInsertWith, btreeInsert, h1, h2, ih h]

theorem btreeOrInsertWith_absent_none {k : K} {l : List (K × Cell V)}
    (h : btreeGet k l = none) (σ : Nat) :
    btreeOrInsertWith k (none : Option V) σ l =
      ((.error thunkPanicMsg, l, σ), 1) := by
  induction l with
  | nil => simp [btreeOrInsertWith]
  | cons p rest ih =>
    obtain ⟨k', c'⟩ := p
    by_cases h1 : k < k'
    · simp [btreeOrInsertWith, h1]
    · by_cases h2 : k = k'
      · simp [btreeGet, h1, h2] at h
      · simp [btreeGet, h1, h2] at h
        simp [btreeOrInsertWith, h1, h2, ih h]

theorem btreeOrInsertWith_count_le_one (k : K) (d : Option V) (σ : Nat)
    (l : List (K × Cell V)) : (btreeOrInsertWith k d σ l).2 ≤ 1 := by
  induction l with
  | nil => cases d <;> simp [btreeOrInsertWith]
  | cons p rest ih =>
    obtain ⟨k', c'⟩ := p
    by_cases h1 : k < k'
    · cases d <;> simp [btreeOrInsertWith, h1]
    · by_cases h2 : k = k'
      · simp [btreeOrInsertWith, h1, h2]
      · simp [btreeOrInsertWith, h1, h2, ih]

theorem mem_btreeInsert {k : K} {c : Cell V} {l : List (K × Cell V)}
    {p : K × Cell V} (h : p ∈ (btreeInsert k c l).1) :
    p = (k, c) ∨ p ∈ l := by
  induction l with
  | nil => simp [btreeInsert] at h; simp [h]
  | cons q rest ih =>
    obtain ⟨k', c'⟩ := q
    by_cases h1 : k < k'
    · simp [btreeInsert, h1] at h
      rcases h with h | h | h
      · exact Or.inl (by simp [h])
      · exact Or.inr (by simp [h])
      · exact Or.inr (by simp [h])
    · by_cases h2 : k = k'
      · simp [btreeInsert, h1, h2] at h
        rcases h with h | h
        · exact Or.inl (by simp [h, h2])
        · exact Or.inr (by simp [h])
      · simp [btreeInsert, h1, h2] at h
        rcases h with h | h
        · exact Or.inr (by simp [h])
        · rcases ih h with h' | h'
          · exact Or.inl h'
          · exact Or.inr (by simp [h'])

theorem pairwise_btreeInsert {k : K} {c : Cell V} {l : List (K × Cell V)}
    (h : List.Pairwise (fun a b => a.1 < b.1) l) :
    List.Pairwise (fun a b => a.1 < b.1) (btreeInsert k c l).1 := by
  induction l with
  | nil => simp [btreeInsert]
  | cons q rest ih =>
    obtain ⟨k', c'⟩ := q
    rcases List.pairwise_cons.mp h with ⟨hh, ht⟩
    by_cases h1 : k < k'
    · simp only [btreeInsert, if_pos h1]
      refine List.pairwise_cons.mpr ⟨?_, h⟩
      intro b hb
      rcases List.mem_cons.mp hb with hb | hb
      · simp [hb, h1]
      · exact lt_trans h1 (hh b hb)
    · by_cases h2 : k = k'
      · simp only [btreeInsert, if_neg h1, if_pos h2]
        refine List.pairwise_cons.mpr ⟨?_, ht⟩
        intro b hb
        exact h2 ▸ hh b hb
      · simp only [btreeInsert, if_neg h1, if_neg h2]
        refine List.pairwise_cons.mpr ⟨?_, ih ht⟩
        intro b hb
        rcases mem_btreeInsert hb with hb | hb
        · have : k' < k := by
            rcases lt_trichotomy k k' with h | h | h
            · exact absurd h h1
            · exact absurd h h2
            · exact h
          simp [hb, this]
        · exact hh b hb

end BtreeLemmas

section IterModel

variable {α : Type u}

/-- Forward step of a double-ended iterator over a list (the embedding of
`btree_map::Iter::next` and friends). -/
def listNext : List α → Option α × List α
  | [] => (none, [])
  | x :: xs => (some x, xs)

/-- Backward step (`next_back`). -/
def listNextBack (l : List α) : Option α × List α :=
  (l.getLast?, l.dropLast)

/-- Full forward traversal: the items yielded by repeatedly calling the
forward step until it returns `none`. -/
def listDrain : List α → List α
  | [] => []
  | x :: xs => x :: listDrain xs

/-- Full reverse traversal: the items yielded by repeatedly calling the
backward step until it returns `none`. -/
def listDrainBack : List α → List α
  | [] => []
  | x :: xs => (x :: xs).getLast (by simp) :: listDrainBack ((x :: xs).dropLast)
termination_by l => l.length
decreasing_by simp

theorem listDrain_eq (l : List α) : listDrain l = l := by
  induction l with
  | nil => rfl
  | cons x xs ih => simp [listDrain, ih]

theorem listDrainBack_eq_aux (n : Nat) :
    ∀ l : List α, l.length ≤ n → listDrainBack l = l.reverse := by
  induction n with
  | zero =>
    intro l hl
    have : l = [] := List.length_eq_zero.mp (Nat.le_zero.mp hl)
    simp [this, listDrainBack]
  | succ n ih =>
    intro l hl
    match l with
    | [] => simp [listDrainBack]
    | x :: xs =>
      rw [listDrainBack]
      rw [ih ((x :: xs).dropLast) (by simp at hl ⊢; omega)]
      conv_rhs => rw [← List.dropLast_append_getLast (l := x :: xs) (by simp)]
      rw [List.reverse_append]
      simp

theorem listDrainBack_eq (l : List α) : listDrainBack l = l.reverse :=
  listDrainBack_eq_aux l.length l (Nat.le_refl _)

end IterModel

section Iterators

variable {K : Type u} {V : Type u}

/-- Snapshot iterator over the entries of a `PinnedMap` (`map::Iter`); it
wraps the `btree_map` entry iterator while the read guard is held. -/
structure Iter (K : Type u) (V : Type u) where
  inner : List (K × Cell V)

/-- Snapshot iterator over the keys (`map::Keys`). -/
structure Keys (K : Type u) (V : Type u) where
  inner : List K

/-- Snapshot iterator over the values (`map::Values`). -/
structure Values (K : Type u) (V : Type u) where
  inner : List (Cell V)

namespace Iter

/-- `Iterator::next` -/
def next (it : Iter K V) : Option (K × Cell V) × Iter K V :=
  ((listNext it.inner).1, ⟨(listNext it.inner).2⟩)

/-- `DoubleEndedIterator::next_back` -/
def next_back (it : Iter K V) : Option (K × Cell V) × Iter K V :=
  ((listNextBack it.inner).1, ⟨(listNextBack it.inner).2⟩)

/-- `Iterator::size_hint` -/
def size_hint (it : Iter K V) : Nat × Option Nat :=
  (it.inner.length, some it.inner.length)

/-- `ExactSizeIterator::len` -/
def len (it : Iter K V) : Nat := it.inner.length

/-- `Iterator::last`, forwarded to `self.inner.last()`. -/
def last (it : Iter K V) : Option (K × Cell V) := it.inner.getLast?

/-- `Iterator::min`, overridden to `self.next()`. -/
def min (it : Iter K V) : Option (K × Cell V) := it.next.1

/-- `Iterator::max`, overridden to `self.next_back()`. -/
def max (it : Iter K V) : Option (K × Cell V) := it.next_back.1

/-- Items yielded by a full forward traversal. -/
def drain (it : Iter K V) : List (K × Cell V) := listDrain it.inner

/-- Items yielded by a full reverse traversal. -/
def drainBack (it : Iter K V) : List (K × Cell V) := listDrainBack it.inner

end Iter

namespace Keys

/-- `Iterator::next` -/
def next (it : Keys K V) : Option K × Keys K V :=
  ((listNext it.inner).1, ⟨(listNext it.inner).2⟩)

/-- `DoubleEndedIterator::next_back` -/
def next_back (it : Keys K V) : Option K × Keys K V :=
  ((listNextBack it.inner).1, ⟨(listNextBack it.inner).2⟩)

/-- `Iterator::size_hint` -/
def size_hint (it : Keys K V) : Nat × Option Nat :=
  (it.inner.length, some it.inner.length)

/-- `ExactSizeIterator::len` -/
def len (it : Keys K V) : Nat := it.inner.length

/-- `Iterator::last`, overridden to `self.next_back()`. -/
def last (it : Keys K V) : Option K := it.next_back.1

/-- `Iterator::min`, overridden to `self.next()`. -/
def min (it : Keys K V) : Option K := it.next.1

/-- `Iterator::max`, overridden to `self.next_back()`. -/
def max (it : Keys K V) : Option K := it.next_back.1

/-- Items yielded by a full forward traversal. -/
def drain (it : Keys K V) : List K := listDrain it.inner

/-- Items yielded by a full reverse traversal. -/
def drainBack (it : Keys K V) : List K := listDrainBack it.inner

end Keys

/-- The default `Iterator::min` on a value iterator: re-scan, comparing the
pointed-to values; on ties the first element wins. -/
def listMinByVal [LinearOrder V] : List (Cell V) → Option (Cell V)
  | [] => none
  | c :: cs => some (cs.foldl (fun acc y => if y.val < acc.val then y else acc) c)

/-- The default `Iterator::max` on a value iterator: re-scan, comparing the
pointed-to values; on ties the last element wins. -/
def listMaxByVal [LinearOrder V] : List (Cell V) → Option (Cell V)
  | [] => none
  | c :: cs => some (cs.foldl (fun acc y => if acc.val ≤ y.val then y else acc) c)

namespace Values

/-- `Iterator::next` -/
def next (it : Values K V) : Option (Cell V) × Values K V :=
  ((listNext it.inner).1, ⟨(listNext it.inner).2⟩)

/-- `DoubleEndedIterator::next_back` -/
def next_back (it : Values K V) : Option (Cell V) × Values K V :=
  ((listNextBack it.inner).1, ⟨(listNextBack it.inner).2⟩)

/-- `Iterator::size_hint` -/
def size_hint (it : Values K V) : Nat × Option Nat :=
  (it.inner.length, some it.inner.length)

/-- `ExactSizeIterator::len` -/
def len (it : Values K V) : Nat := it.inner.length

/-- `Iterator::last`, overridden to `self.next_back()`. -/
def last (it : Values K V) : Option (Cell V) := it.next_back.1

/-- `Iterator::min`: not overridden in `values.rs`, so the trait default
applies — a comparison-based re-scan of the values. -/
def min [LinearOrder V] (it : Values K V) : Option (Cell V) :=
  listMinByVal it.inner

/-- `Iterator::max`: not overridden in `values.rs`, so the trait default
applies — a comparison-based re-scan of the values. -/
def max [LinearOrder V] (it : Values K V) : Option (Cell V) :=
  listMaxByVal it.inner

/-- Items yielded by a full forward traversal. -/
def drain (it : Values K V) : List (Cell V) := listDrain it.inner

/-- Items yielded by a full reverse traversal. -/
def drainBack (it : Values K V) : List (Cell V) := listDrainBack it.inner

end Values

/-- `PinnedMap::iter` (also `IntoIterator for &PinnedMap`). -/
def PinnedMap.iter (m : PinnedMap K V) : Iter K V := ⟨m.sections⟩

/-- `PinnedMap::keys` -/
def PinnedMap.keys (m : PinnedMap K V) : Keys K V := ⟨m.sections.map Prod.fst⟩

/-- `PinnedMap::values` -/
def PinnedMap.values (m : PinnedMap K V) : Values K V :=
  ⟨m.sections.map Prod.snd⟩

end Iterators

section MapLemmas

variable {K : Type u} {V : Type u} [LinearOrder K]

theorem insert_sections (s : Bool) (m : PinnedMap K V) (k : K) (v : V) (σ : Nat) :
    ((m.insert s k v σ).2.1.sections, (m.insert s k v σ).2.2) =
      ((btreeInsert k (⟨σ, v⟩ : Cell V) m.sections).1, σ + 1) := by
  unfold PinnedMap.insert
  cases hp : (btreeInsert k (⟨σ, v⟩ : Cell V) m.sections).2 <;> cases s <;> simp [hp]

theorem insert_false_parts (m : PinnedMap K V) (k : K) (v : V) (σ : Nat) :
    ∃ sh, m.insert false k v σ =
      (.ok ⟨σ, v⟩, ⟨(btreeInsert k (⟨σ, v⟩ : Cell V) m.sections).1, sh⟩, σ + 1) := by
  unfold PinnedMap.insert
  cases hp : (btreeInsert k (⟨σ, v⟩ : Cell V) m.sections).2 <;> simp [hp]

theorem insert_false_present {m : PinnedMap K V} {k : K} {c : Cell V}
    (hc : btreeGet k m.sections = some c) (v : V) (σ : Nat) :
    m.insert false k v σ =
      (.ok ⟨σ, v⟩, ⟨(btreeInsert k (⟨σ, v⟩ : Cell V) m.sections).1,
        m.shadowed ++ [c]⟩, σ + 1) := by
  unfold PinnedMap.insert
  have hp : (btreeInsert k (⟨σ, v⟩ : Cell V) m.sections).2 = some c :=
    (btreeInsert_snd k _ m.sections).trans hc
  simp [hp]

theorem insert_true_present_error {m : PinnedMap K V} {k : K} {c : Cell V}
    (hc : btreeGet k m.sections = some c) (v : V) (σ : Nat) :
    (m.insert true k v σ).1 = .error dupKeyMsg := by
  unfold PinnedMap.insert
  have hp : (btreeInsert k (⟨σ, v⟩ : Cell V) m.sections).2 = some c :=
    (btreeInsert_snd k _ m.sections).trans hc
  simp [hp]

theorem insert_true_ok_sections {m m₁ : PinnedMap K V} {k : K} {v : V}
    {σ σ₁ : Nat} {c : Cell V}
    (h : m.insert true k v σ = (.ok c, m₁, σ₁)) :
    c = ⟨σ, v⟩ ∧ m₁.sections = (btreeInsert k (⟨σ, v⟩ : Cell V) m.sections).1 := by
  unfold PinnedMap.insert at h
  cases hp : (btreeInsert k (⟨σ, v⟩ : Cell V) m.sections).2 <;> rw [hp] at h
  · simp only [Prod.mk.injEq, Except.ok.injEq] at h
    exact ⟨h.1.symm, by rw [← h.2.1]⟩
  · simp at h

theorem runMap_get_preserved {m : PinnedMap K V} {k : K} {c : Cell V}
    {ops : List (K × V)} {σ : Nat}
    (h : m.get k = some c) (hk : ∀ p ∈ ops, p.1 ≠ k) :
    (runMap m σ ops).1.get k = some c := by
  induction ops generalizing m σ with
  | nil => simpa [runMap]
  | cons p ops ih =>
    obtain ⟨k', v'⟩ := p
    have hne : k ≠ k' := fun he => (hk (k', v') (by simp)) (by simp [he])
    rw [show runMap m σ ((k', v') :: ops) =
      runMap (m.insert false k' v' σ).2.1 (m.insert false k' v' σ).2.2 ops from rfl]
    refine ih ?_ (fun p hp => hk p (by simp [hp]))
    obtain ⟨sh, he⟩ := insert_false_parts m k' v' σ
    rw [he]
    show btreeGet k (btreeInsert k' (⟨σ, v'⟩ : Cell V) m.sections).1 = some c
    rw [btreeGet_btreeInsert_ne hne]
    exact h

theorem sortedKeys_insert (s : Bool) {m : PinnedMap K V} (k : K) (v : V) (σ : Nat)
    (h : m.SortedKeys) : (m.insert s k v σ).2.1.SortedKeys := by
  have hs := insert_sections s m k v σ
  unfold PinnedMap.SortedKeys
  rw [(Prod.mk.injEq _ _ _ _).mp hs |>.1]
  exact pairwise_btreeInsert h

theorem sortedKeys_runMap {m : PinnedMap K V} {σ : Nat} (ops : List (K × V))
    (h : m.SortedKeys) : (runMap m σ ops).1.SortedKeys := by
  induction ops generalizing m σ with
  | nil => simpa [runMap]
  | cons p ops ih =>
    obtain ⟨k, v⟩ := p
    rw [show runMap m σ ((k, v) :: ops) =
      runMap (m.insert false k v σ).2.1 (m.insert false k v σ).2.2 ops from rfl]
    exact ih (sortedKeys_insert false k v σ h)

theorem appended_append {T : Type u} (ops₁ ops₂ : List (ListOp T)) :
    appended (ops₁ ++ ops₂) = appended ops₁ ++ appended ops₂ := by
  induction ops₁ with
  | nil => simp [appended]
  | cons op ops ih => cases op <;> simp [appended, ih]

omit [LinearOrder K] in
theorem cloneSections_content (σ : Nat) (l : List (K × Cell V)) :
    (PinnedMap.cloneSections σ l).1.map (fun p => (p.1, p.2.val)) =
      l.map (fun p => (p.1, p.2.val)) := by
  induction l generalizing σ with
  | nil => simp [PinnedMap.cloneSections]
  | cons p rest ih =>
    obtain ⟨k, c⟩ := p
    simp [PinnedMap.cloneSections, ih]

omit [LinearOrder K] in
theorem mem_cloneSections_addr {σ : Nat} {l : List (K × Cell V)}
    {p : K × Cell V} (h : p ∈ (PinnedMap.cloneSections σ l).1) :
    σ ≤ p.2.addr := by
  induction l generalizing σ with
  | nil => simp [PinnedMap.cloneSections] at h
  | cons q rest ih =>
    obtain ⟨k, c⟩ := q
    simp [PinnedMap.cloneSections] at h
    rcases h with h | h
    · simp [h]
    · exact Nat.le_of_lt (Nat.lt_of_lt_of_le (Nat.lt_succ_self σ) (ih h))

end MapLemmas

section StepLemmas

variable {α : Type u}

theorem listNext_some {l l' : List α} {x : α} (h : listNext l = (some x, l')) :
    l'.length + 1 = l.length := by
  cases l with
  | nil => simp [listNext] at h
  | cons y ys =>
    simp [listNext] at h
    simp [h.2]

theorem listNextBack_some {l l' : List α} {x : α}
    (h : listNextBack l = (some x, l')) : l'.length + 1 = l.length := by
  cases l with
  | nil => simp [listNextBack] at h
  | cons y ys =>
    simp [listNextBack] at h
    rw [← h.2]
    simp

theorem listNext_none {l : List α} (h : (listNext l).1 = none) :
    l = [] := by
  cases l with
  | nil => rfl
  | cons y ys => simp [listNext] at h

theorem foldlMinByVal_spec {V : Type u} [LinearOrder V] (c : Cell V)
    (cs : List (Cell V)) :
    (cs.foldl (fun acc y => if y.val < acc.val then y else acc) c) ∈ c :: cs ∧
    (cs.foldl (fun acc y => if y.val < acc.val then y else acc) c).val ≤ c.val ∧
    ∀ y ∈ cs,
      (cs.foldl (fun acc y => if y.val < acc.val then y else acc) c).val ≤ y.val := by
  induction cs generalizing c with
  | nil => simp
  | cons y ys ih =>
    by_cases hy : y.val < c.val
    · have h := ih y
      simp only [List.foldl, if_pos hy]
      refine ⟨?_, ?_, ?_⟩
      · rcases List.mem_cons.mp h.1 with h1 | h1
        · simp [h1]
        · simp [h1]
      · exact le_of_lt (lt_of_le_of_lt h.2.1 hy)
      · intro z hz
        rcases List.mem_cons.mp hz with hz | hz
        · exact hz ▸ h.2.1
        · exact h.2.2 z hz
    · have h := ih c
      simp only [List.foldl, if_neg hy]
      refine ⟨?_, h.2.1, ?_⟩
      · rcases List.mem_cons.mp h.1 with h1 | h1
        · simp [h1]
        · simp [h1]
      · intro z hz
        rcases List.mem_cons.mp hz with hz | hz
        · exact hz ▸ le_trans h.2.1 (le_of_not_lt hy)
        · exact h.2.2 z hz

theorem foldlMaxByVal_spec {V : Type u} [LinearOrder V] (c : Cell V)
    (cs : List (Cell V)) :
    (cs.foldl (fun acc y => if acc.val ≤ y.val then y else acc) c) ∈ c :: cs ∧
    c.val ≤ (cs.foldl (fun acc y => if acc.val ≤ y.val then y else acc) c).val ∧
    ∀ y ∈ cs,
      y.val ≤ (cs.foldl (fun acc y => if acc.val ≤ y.val then y else acc) c).val := by
  induction cs generalizing c with
  | nil => simp
  | cons y ys ih =>
    by_cases hy : c.val ≤ y.val
    · have h := ih y
      simp only [List.foldl, if_pos hy]
      refine ⟨?_, le_trans hy h.2.1, ?_⟩
      · rcases List.mem_cons.mp h.1 with h1 | h1
        · simp [h1]
        · simp [h1]
      · intro z hz
        rcases List.mem_cons.mp hz with hz | hz
        · exact hz ▸ h.2.1
        · exact h.2.2 z hz
    · have h := ih c
      simp only [List.foldl, if_neg hy]
      refine ⟨?_, h.2.1, ?_⟩
      · rcases List.mem_cons.mp h.1 with h1 | h1
        · simp [h1]
        · simp [h1]
      · intro z hz
        rcases List.mem_cons.mp hz with hz | hz
        · exact hz ▸ le_trans (le_of_not_le hy) h.2.1
        · exact h.2.2 z hz

end StepLemmas

/-- C1: for every sequence of insertions into a `PinnedList` or a
`PinnedMap`, the reference returned by an earlier `push`/`insert` compares
equal (address included) to the reference a later `index`/`get` yields for
the same element, no matter how many insertions — capacity-exceeding ones
included — happened in between. -/
theorem c1_reference_stability :
    (∀ (T : Type) (l : PinnedList T) (t : T) (σ : Nat) (c : Cell T)
        (l₁ : PinnedList T) (σ₁ : Nat) (ops : List (ListOp T)),
        l.push t σ = (c, l₁, σ₁) →
        (runList l₁ σ₁ ops).1.index l.len = some c) ∧
    (∀ (K V : Type) [LinearOrder K] (m : PinnedMap K V) (k : K) (v : V)
        (σ : Nat) (c : Cell V) (m₁ : PinnedMap K V) (σ₁ : Nat)
        (ops : List (K × V)),
        m.insert false k v σ = (.ok c, m₁, σ₁) →
        (∀ p ∈ ops, p.1 ≠ k) →
        (runMap m₁ σ₁ ops).1.get k = some c) := by
  constructor
  · intro T l t σ c l₁ σ₁ ops h
    simp only [PinnedList.push, Prod.mk.injEq] at h
    obtain ⟨hc, hl, hσ⟩ := h
    subst hc hl hσ
    unfold PinnedList.index PinnedList.len
    rw [(runList_sections _ _ _).1, List.append_assoc,
      List.getElem?_append_right (Nat.le_refl _)]
    simp
  · intro K V _ m k v σ c m₁ σ₁ ops h hk
    obtain ⟨sh, he⟩ := insert_false_parts m k v σ
    rw [he] at h
    simp only [Prod.mk.injEq, Except.ok.injEq] at h
    obtain ⟨hc, hm, hσ⟩ := h
    subst hc hm hσ
    refine runMap_get_preserved ?_ hk
    exact btreeGet_btreeInsert_self k _ m.sections

/-- Witness for C1: a list created with capacity 1 receives three more
elements (forcing index reallocation) after the tracked push; a map
receives two more keys after the tracked insert. -/
theorem c1_reference_stability_witness :
    (runList (⟨[⟨0, 5⟩], 1⟩ : PinnedList Nat) 1
        [.push 6, .extend [7, 8]]).1.index 0 = some (⟨0, 5⟩ : Cell Nat) ∧
    (runMap (⟨[(1, ⟨0, 10⟩)], []⟩ : PinnedMap Nat Nat) 1
        [(2, 20), (3, 30)]).1.get 1 = some ⟨0, 10⟩ := by
  refine ⟨?_, ?_⟩
  · exact c1_reference_stability.1 Nat (PinnedList.with_capacity Nat 1) 5 0
      ⟨0, 5⟩ ⟨[⟨0, 5⟩], 1⟩ 1 [.push 6, .extend [7, 8]] (by decide)
  · exact c1_reference_stability.2 Nat Nat (PinnedMap.new Nat Nat) 1 10 0
      ⟨0, 10⟩ ⟨[(1, ⟨0, 10⟩)], []⟩ 1 [(2, 20), (3, 30)] rfl (by decide)

/-- C2: over any sequence of `push` and `extend` calls on a `PinnedList`,
index `i` refers to the `i`-th value ever appended, `len` is the total
number of values appended, `extend` appends its input in order returning
one reference per value in insertion order, and later appends never change
what earlier indices refer to. -/
theorem c2_list_append_semantics :
    ∀ (T : Type) (σ : Nat) (ops : List (ListOp T)),
      (runList (PinnedList.new T) σ ops).1.len = (appended ops).length ∧
      (∀ i : Nat, ((runList (PinnedList.new T) σ ops).1.index i).map Cell.val
          = (appended ops)[i]?) ∧
      (∀ (l : PinnedList T) (ts : List T) (σ' : Nat),
        (l.extend ts σ').1.map Cell.val = ts ∧
        (l.extend ts σ').2.1.sections = l.sections ++ (l.extend ts σ').1) ∧
      (∀ (ops₂ : List (ListOp T)) (i : Nat),
        i < (runList (PinnedList.new T) σ ops).1.len →
        (runList (PinnedList.new T) σ (ops ++ ops₂)).1.index i
          = (runList (PinnedList.new T) σ ops).1.index i) := by
  intro T σ ops
  have hs := runList_sections (PinnedList.new T) σ ops
  refine ⟨?_, ?_, ?_, ?_⟩
  · unfold PinnedList.len
    rw [hs.1]
    simp [PinnedList.new, allocCells_length]
  · intro i
    unfold PinnedList.index
    rw [hs.1]
    simp only [PinnedList.new, List.nil_append]
    conv_rhs => rw [← allocCells_map_val σ (appended ops)]
    rw [List.getElem?_map]
  · intro l ts σ'
    constructor
    · simp [PinnedList.extend, allocCells_map_val]
    · simp [PinnedList.extend]
  · intro ops₂ i hi
    have hs2 := runList_sections (PinnedList.new T) σ (ops ++ ops₂)
    unfold PinnedList.index
    rw [hs.1, hs2.1]
    simp only [appended_append, allocCells_append, PinnedList.new,
      List.nil_append]
    have hi' : i < (allocCells σ (appended ops)).1.length := by
      unfold PinnedList.len at hi
      rw [hs.1] at hi
      simpa [PinnedList.new] using hi
    exact List.getElem?_append_left hi'

/-- Witness for C2 at a concrete run of one push and one two-element
extend. -/
theorem c2_list_append_semantics_witness :
    (runList (PinnedList.new Nat) 0 [.push 1, .extend [2, 3]]).1.len = 3 ∧
    ((runList (PinnedList.new Nat) 0 [.push 1, .extend [2, 3]]).1.index
        1).map Cell.val = some 2 ∧
    ((PinnedList.new Nat).extend [2, 3] 1).1.map Cell.val = [2, 3] ∧
    (runList (PinnedList.new Nat) 0 ([.push 1, .extend [2, 3]] ++ [.push 9])).1.index 0
      = (runList (PinnedList.new Nat) 0 [.push 1, .extend [2, 3]]).1.index 0 := by
  have h := c2_list_append_semantics Nat 0 [.push 1, .extend [2, 3]]
  refine ⟨h.1, ?_, ?_, ?_⟩
  · have := h.2.1 1
    rw [this]
    decide
  · exact (h.2.2.1 (PinnedList.new Nat) [2, 3] 1).1
  · exact h.2.2.2 [.push 9] 0 (by decide)

/-- C3: in the lenient configuration, after `insert(k, v1)` then
`insert(k, v2)` the first insert's reference still holds `v1`, `get(k)`
returns the second insert's reference (holding `v2`), the duplicate insert
leaves `len()` unchanged, and the superseded cell sits in the shadow
retention list. -/
theorem c3_lenient_shadow_retention :
    ∀ (K V : Type) [LinearOrder K] (m : PinnedMap K V) (k : K) (v₁ v₂ : V)
      (σ σ₁ σ₂ : Nat) (c₁ c₂ : Cell V) (m₁ m₂ : PinnedMap K V),
      m.insert false k v₁ σ = (.ok c₁, m₁, σ₁) →
      m₁.insert false k v₂ σ₁ = (.ok c₂, m₂, σ₂) →
      c₁.val = v₁ ∧ m₂.get k = some c₂ ∧ c₂.val = v₂ ∧
        m₂.len = m₁.len ∧ c₁ ∈ m₂.shadowed := by
  intro K V _ m k v₁ v₂ σ σ₁ σ₂ c₁ c₂ m₁ m₂ h1 h2
  obtain ⟨sh, he⟩ := insert_false_parts m k v₁ σ
  rw [he] at h1
  simp only [Prod.mk.injEq, Except.ok.injEq] at h1
  obtain ⟨hc1, hm1, hσ1⟩ := h1
  subst hc1 hm1 hσ1
  have hget : btreeGet k (⟨(btreeInsert k (⟨σ, v₁⟩ : Cell V) m.sections).1, sh⟩ :
      PinnedMap K V).sections = some ⟨σ, v₁⟩ :=
    btreeGet_btreeInsert_self k _ m.sections
  rw [insert_false_present hget v₂ (σ + 1)] at h2
  simp only [Prod.mk.injEq, Except.ok.injEq] at h2
  obtain ⟨hc2, hm2, hσ2⟩ := h2
  subst hc2 hm2 hσ2
  refine ⟨rfl, ?_, rfl, ?_, ?_⟩
  · exact btreeGet_btreeInsert_self k _ _
  · exact btreeInsert_length_present hget _
  · simp

/-- Witness for C3 at a concrete double insert of key 1. -/
theorem c3_lenient_shadow_retention_witness :
    (⟨0, 5⟩ : Cell Nat).val = 5 ∧
    (⟨[(1, ⟨1, 6⟩)], [⟨0, 5⟩]⟩ : PinnedMap Nat Nat).get 1 = some ⟨1, 6⟩ ∧
    (⟨1, 6⟩ : Cell Nat).val = 6 ∧
    (⟨[(1, ⟨1, 6⟩)], [⟨0, 5⟩]⟩ : PinnedMap Nat Nat).len
      = (⟨[(1, ⟨0, 5⟩)], []⟩ : PinnedMap Nat Nat).len ∧
    (⟨0, 5⟩ : Cell Nat) ∈ (⟨[(1, ⟨1, 6⟩)], [⟨0, 5⟩]⟩ : PinnedMap Nat Nat).shadowed :=
  c3_lenient_shadow_retention Nat Nat (PinnedMap.new Nat Nat) 1 5 6 0 1 2
    ⟨0, 5⟩ ⟨1, 6⟩ ⟨[(1, ⟨0, 5⟩)], []⟩ ⟨[(1, ⟨1, 6⟩)], [⟨0, 5⟩]⟩ rfl rfl

/-- C4: in the strict configuration, a successful `insert(k, v1)` followed
by `insert(k, v2)` makes the second insert panic with the duplicate-key
message rather than overwrite silently. -/
theorem c4_strict_duplicate_panic :
    ∀ (K V : Type) [LinearOrder K] (m : PinnedMap K V) (k : K) (v₁ v₂ : V)
      (σ σ₁ : Nat) (c₁ : Cell V) (m₁ : PinnedMap K V),
      m.insert true k v₁ σ = (.ok c₁, m₁, σ₁) →
      (m₁.insert true k v₂ σ₁).1 = .error dupKeyMsg := by
  intro K V _ m k v₁ v₂ σ σ₁ c₁ m₁ h
  obtain ⟨hc, hs⟩ := insert_true_ok_sections h
  have hget : btreeGet k m₁.sections = some ⟨σ, v₁⟩ := by
    rw [hs]
    exact btreeGet_btreeInsert_self k _ m.sections
  exact insert_true_present_error hget v₂ σ₁

/-- Witness for C4: strict re-insert of key 1 panics. -/
theorem c4_strict_duplicate_panic_witness :
    ((⟨[(1, ⟨0, 5⟩)], []⟩ : PinnedMap Nat Nat).insert true 1 6 1).1
      = .error dupKeyMsg :=
  c4_strict_duplicate_panic Nat Nat (PinnedMap.new Nat Nat) 1 5 6 0 1
    ⟨0, 5⟩ ⟨[(1, ⟨0, 5⟩)], []⟩ rfl

/-- C5: `get_or_insert` on a present key returns the existing cell's
reference, discards the value and leaves the map unchanged;
`get_or_insert_with` has the same contract and additionally runs its thunk
only for an absent key and at most once per call; on an absent key both
insert the new value and return its reference. -/
theorem c5_get_or_insert_contract :
    ∀ (K V : Type) [LinearOrder K] (m : PinnedMap K V) (k : K) (σ : Nat),
      (∀ (c : Cell V) (v : V), m.get k = some c →
        m.get_or_insert k v σ = (c, m, σ + 1)) ∧
      (∀ (c : Cell V) (d : Option V), m.get k = some c →
        m.get_or_insert_with k d σ = ((.ok c, m, σ), 0)) ∧
      (∀ v : V, m.get k = none →
        (m.get_or_insert k v σ).1 = ⟨σ, v⟩ ∧
        (m.get_or_insert k v σ).2.1.get k = some ⟨σ, v⟩) ∧
      (∀ v : V, m.get k = none →
        (m.get_or_insert_with k (some v) σ).1.1 = .ok ⟨σ, v⟩ ∧
        (m.get_or_insert_with k (some v) σ).1.2.1.get k = some ⟨σ, v⟩ ∧
        (m.get_or_insert_with k (some v) σ).2 = 1) ∧
      (∀ d : Option V, (m.get_or_insert_with k d σ).2 ≤ 1) := by
  intro K V _ m k σ
  refine ⟨?_, ?_, ?_, ?_, ?_⟩
  · intro c v hc
    unfold PinnedMap.get at hc
    unfold PinnedMap.get_or_insert
    rw [btreeEntryOrInsert_present hc]
  · intro c d hc
    unfold PinnedMap.get at hc
    unfold PinnedMap.get_or_insert_with
    rw [btreeOrInsertWith_present hc]
  · intro v hc
    unfold PinnedMap.get at hc
    unfold PinnedMap.get_or_insert PinnedMap.get
    rw [btreeEntryOrInsert_absent hc]
    exact ⟨rfl, btreeGet_btreeInsert_self k _ m.sections⟩
  · intro v hc
    unfold PinnedMap.get at hc
    unfold PinnedMap.get_or_insert_with PinnedMap.get
    rw [btreeOrInsertWith_absent_some hc]
    exact ⟨rfl, btreeGet_btreeInsert_self k _ m.sections, rfl⟩
  · intro d
    unfold PinnedMap.get_or_insert_with
    exact btreeOrInsertWith_count_le_one k d σ m.sections

/-- Witness for C5 on a one-entry map: present key 1, absent key 2. -/
theorem c5_get_or_insert_contract_witness :
    (⟨[(1, ⟨0, 5⟩)], []⟩ : PinnedMap Nat Nat).get_or_insert 1 99 1
      = (⟨0, 5⟩, ⟨[(1, ⟨0, 5⟩)], []⟩, 2) ∧
    (⟨[(1, ⟨0, 5⟩)], []⟩ : PinnedMap Nat Nat).get_or_insert_with 1 (some 99) 1
      = ((.ok ⟨0, 5⟩, ⟨[(1, ⟨0, 5⟩)], []⟩, 1), 0) ∧
    ((⟨[(1, ⟨0, 5⟩)], []⟩ : PinnedMap Nat Nat).get_or_insert 2 7 1).1 = ⟨1, 7⟩ ∧
    ((⟨[(1, ⟨0, 5⟩)], []⟩ : PinnedMap Nat Nat).get_or_insert 2 7 1).2.1.get 2
      = some ⟨1, 7⟩ ∧
    ((⟨[(1, ⟨0, 5⟩)], []⟩ : PinnedMap Nat Nat).get_or_insert_with 2 (some 7) 1).2
      = 1 := by
  have h := c5_get_or_insert_contract Nat Nat (⟨[(1, ⟨0, 5⟩)], []⟩ : PinnedMap Nat Nat)
  refine ⟨h 1 1 |>.1 ⟨0, 5⟩ 99 rfl, h 1 1 |>.2.1 ⟨0, 5⟩ (some 99) rfl,
    (h 2 1 |>.2.2.1 7 rfl).1, (h 2 1 |>.2.2.1 7 rfl).2,
    (h 2 1 |>.2.2.2.1 7 rfl).2.2⟩

/-- C6: a panicking thunk passed to `get_or_insert_with` for an absent key
runs exactly once, the panic propagates as the call's result, and the map —
contents, shadow list and hence `len()` — is left unchanged. -/
theorem c6_thunk_panic_propagates :
    ∀ (K V : Type) [LinearOrder K] (m : PinnedMap K V) (k : K) (σ : Nat),
      m.get k = none →
      m.get_or_insert_with k (none : Option V) σ =
        ((.error thunkPanicMsg, m, σ), 1) := by
  intro K V _ m k σ hc
  unfold PinnedMap.get at hc
  unfold PinnedMap.get_or_insert_with
  rw [btreeOrInsertWith_absent_none hc]

/-- Witness for C6: the thunk panics on absent key 2. -/
theorem c6_thunk_panic_propagates_witness :
    (⟨[(1, ⟨0, 5⟩)], []⟩ : PinnedMap Nat Nat).get_or_insert_with 2
        (none : Option Nat) 1 =
      ((.error thunkPanicMsg, ⟨[(1, ⟨0, 5⟩)], []⟩, 1), 1) :=
  c6_thunk_panic_propagates Nat Nat ⟨[(1, ⟨0, 5⟩)], []⟩ 2 1 rfl

/-- C7: whatever the insertion order, a map's `iter`, `keys` and `values`
iterators traverse the key-sorted index: forward traversal is ascending in
the key order, reverse traversal descending, and each live entry (and each
key) is yielded exactly once. -/
theorem c7_ordered_traversal :
    ∀ (K V : Type) [LinearOrder K] (σ : Nat) (ops : List (K × V))
      (m : PinnedMap K V),
      m = (runMap (PinnedMap.new K V) σ ops).1 →
      m.iter.drain = m.sections ∧
      m.keys.drain = m.sections.map Prod.fst ∧
      m.values.drain = m.sections.map Prod.snd ∧
      m.iter.drainBack = m.sections.reverse ∧
      m.keys.drainBack = (m.sections.map Prod.fst).reverse ∧
      m.values.drainBack = (m.sections.map Prod.snd).reverse ∧
      List.Pairwise (· < ·) m.keys.drain ∧
      List.Pairwise (· > ·) m.keys.drainBack ∧
      m.iter.drain.Nodup ∧
      m.keys.drain.Nodup := by
  intro K V _ σ ops m hm
  have hsorted : m.SortedKeys := by
    rw [hm]
    exact sortedKeys_runMap ops (by simp [PinnedMap.new, PinnedMap.SortedKeys])
  have hkeys : List.Pairwise (· < ·) (m.sections.map Prod.fst) :=
    List.pairwise_map.mpr hsorted
  have hdk : m.keys.drain = m.sections.map Prod.fst := listDrain_eq _
  refine ⟨listDrain_eq _, hdk, listDrain_eq _, listDrainBack_eq _,
    listDrainBack_eq _, listDrainBack_eq _, ?_, ?_, ?_, ?_⟩
  · rw [hdk]; exact hkeys
  · rw [show m.keys.drainBack = (m.sections.map Prod.fst).reverse from
      listDrainBack_eq _]
    exact List.pairwise_reverse.mpr (by simpa [flip] using hkeys)
  · rw [show m.iter.drain = m.sections from listDrain_eq _]
    exact hsorted.imp (fun {a b} hab heq => by subst heq; exact lt_irrefl _ hab)
  · rw [hdk]
    exact hkeys.imp (fun {a b} hab => ne_of_lt hab)

/-- Witness for C7: keys 2 then 1 inserted out of order; traversal is
key-ascending and every entry appears once. -/
theorem c7_ordered_traversal_witness :
    (runMap (PinnedMap.new Nat Nat) 0 [(2, 20), (1, 10)]).1.keys.drain
      = [1, 2] ∧
    (runMap (PinnedMap.new Nat Nat) 0 [(2, 20), (1, 10)]).1.keys.drainBack
      = [2, 1] ∧
    (runMap (PinnedMap.new Nat Nat) 0 [(2, 20), (1, 10)]).1.iter.drain.Nodup := by
  have h := c7_ordered_traversal Nat Nat 0 [(2, 20), (1, 10)] _ rfl
  refine ⟨?_, ?_, h.2.2.2.2.2.2.2.2.1⟩
  · rw [h.2.1]; decide
  · rw [h.2.2.2.2.1]; decide

/-- C10: the three snapshot iterators are exact-sized and fused — at
creation `len` and `size_hint` equal the map's `len`, every successful
`next`/`next_back` shrinks the reported length by one, and a `next` that
returned `None` leaves the iterator in a state where `next` is `None`
forever. -/
theorem c10_iterators_exact_and_fused :
    ∀ (K V : Type) (m : PinnedMap K V),
      (m.iter.len = m.len ∧ m.iter.size_hint = (m.len, some m.len) ∧
       m.keys.len = m.len ∧ m.keys.size_hint = (m.len, some m.len) ∧
       m.values.len = m.len ∧ m.values.size_hint = (m.len, some m.len)) ∧
      (∀ (it : Iter K V) (x : K × Cell V) (it' : Iter K V),
        it.next = (some x, it') → it'.len + 1 = it.len) ∧
      (∀ (it : Iter K V) (x : K × Cell V) (it' : Iter K V),
        it.next_back = (some x, it') → it'.len + 1 = it.len) ∧
      (∀ it : Iter K V, it.next.1 = none → it.next = (none, it)) ∧
      (∀ (it : Keys K V) (x : K) (it' : Keys K V),
        it.next = (some x, it') → it'.len + 1 = it.len) ∧
      (∀ (it : Keys K V) (x : K) (it' : Keys K V),
        it.next_back = (some x, it') → it'.len + 1 = it.len) ∧
      (∀ it : Keys K V, it.next.1 = none → it.next = (none, it)) ∧
      (∀ (it : Values K V) (x : Cell V) (it' : Values K V),
        it.next = (some x, it') → it'.len + 1 = it.len) ∧
      (∀ (it : Values K V) (x : Cell V) (it' : Values K V),
        it.next_back = (some x, it') → it'.len + 1 = it.len) ∧
      (∀ it : Values K V, it.next.1 = none → it.next = (none, it)) := by
  intro K V m
  refine ⟨⟨rfl, rfl, ?_, ?_, ?_, ?_⟩, ?_, ?_, ?_, ?_, ?_, ?_, ?_, ?_, ?_⟩
  · simp [Keys.len, PinnedMap.keys, PinnedMap.len]
  · simp [Keys.size_hint, PinnedMap.keys, PinnedMap.len]
  · simp [Values.len, PinnedMap.values, PinnedMap.len]
  · simp [Values.size_hint, PinnedMap.values, PinnedMap.len]
  · rintro ⟨inner⟩ x it' h
    cases inner with
    | nil => simp [Iter.next, listNext] at h
    | cons y ys =>
      simp only [Iter.next, listNext, Prod.mk.injEq] at h
      rw [← h.2]
      simp [Iter.len]
  · rintro ⟨inner⟩ x it' h
    cases inner with
    | nil => simp [Iter.next_back, listNextBack] at h
    | cons y ys =>
      simp only [Iter.next_back, listNextBack, Prod.mk.injEq] at h
      rw [← h.2]
      simp [Iter.len]
  · rintro ⟨inner⟩ h
    cases inner with
    | nil => rfl
    | cons y ys => simp [Iter.next, listNext] at h
  · rintro ⟨inner⟩ x it' h
    cases inner with
    | nil => simp [Keys.next, listNext] at h
    | cons y ys =>
      simp only [Keys.next, listNext, Prod.mk.injEq] at h
      rw [← h.2]
      simp [Keys.len]
  · rintro ⟨inner⟩ x it' h
    cases inner with
    | nil => simp [Keys.next_back, listNextBack] at h
    | cons y ys =>
      simp only [Keys.next_back, listNextBack, Prod.mk.injEq] at h
      rw [← h.2]
      simp [Keys.len]
  · rintro ⟨inner⟩ h
    cases inner with
    | nil => rfl
    | cons y ys => simp [Keys.next, listNext] at h
  · rintro ⟨inner⟩ x it' h
    cases inner with
    | nil => simp [Values.next, listNext] at h
    | cons y ys =>
      simp only [Values.next, listNext, Prod.mk.injEq] at h
      rw [← h.2]
      simp [Values.len]
  · rintro ⟨inner⟩ x it' h
    cases inner with
    | nil => simp [Values.next_back, listNextBack] at h
    | cons y ys =>
      simp only [Values.next_back, listNextBack, Prod.mk.injEq] at h
      rw [← h.2]
      simp [Values.len]
  · rintro ⟨inner⟩ h
    cases inner with
    | nil => rfl
    | cons y ys => simp [Values.next, listNext] at h

/-- Witness for C10 on a one-entry map and its iterators. -/
theorem c10_iterators_exact_and_fused_witness :
    (⟨[(1, ⟨0, 5⟩)], []⟩ : PinnedMap Nat Nat).iter.size_hint = (1, some 1) ∧
    (⟨[]⟩ : Iter Nat Nat).len + 1 = (⟨[(1, ⟨0, 5⟩)]⟩ : Iter Nat Nat).len ∧
    (⟨[]⟩ : Keys Nat Nat).len + 1 = (⟨[1]⟩ : Keys Nat Nat).len ∧
    (⟨[]⟩ : Values Nat Nat).len + 1 = (⟨[⟨0, 5⟩]⟩ : Values Nat Nat).len ∧
    (⟨[]⟩ : Iter Nat Nat).next = (none, (⟨[]⟩ : Iter Nat Nat)) ∧
    (⟨[]⟩ : Keys Nat Nat).next = (none, (⟨[]⟩ : Keys Nat Nat)) ∧
    (⟨[]⟩ : Values Nat Nat).next = (none, (⟨[]⟩ : Values Nat Nat)) := by
  have h := c10_iterators_exact_and_fused Nat Nat ⟨[(1, ⟨0, 5⟩)], []⟩
  exact ⟨h.1.2.1,
    h.2.1 ⟨[(1, ⟨0, 5⟩)]⟩ (1, ⟨0, 5⟩) ⟨[]⟩ rfl,
    h.2.2.2.2.1 ⟨[1]⟩ 1 ⟨[]⟩ rfl,
    h.2.2.2.2.2.2.2.1 ⟨[⟨0, 5⟩]⟩ ⟨0, 5⟩ ⟨[]⟩ rfl,
    h.2.2.2.1 ⟨[]⟩ rfl,
    h.2.2.2.2.2.2.1 ⟨[]⟩ rfl,
    h.2.2.2.2.2.2.2.2.2 ⟨[]⟩ rfl⟩

/-- C8 counterexample: on the `values()` iterator of the map built by
inserting `(1, 5)` then `(2, 3)`, `min` is not the first element reached in
forward order — `values.rs` does not override `min`, so the trait default
re-scans by value comparison and returns the `3`-cell, while forward
traversal reaches the `5`-cell first. -/
theorem c8_values_min_counterexample :
    ¬ ((runMap (PinnedMap.new Nat Nat) 0 [(1, 5), (2, 3)]).1.values.min
        = (runMap (PinnedMap.new Nat Nat) 0 [(1, 5), (2, 3)]).1.values.next.1) := by
  decide

/-- C8 (amended): on `iter()` and `keys()`, `min`, `max` and `last` are
defined by traversal order — `min` the first element in forward order,
`max` and `last` the last; on `values()` only `last` is traversal-order
(the last forward element), while `min` and `max` fall back to the trait
default, a comparison-based re-scan returning a minimal (resp. maximal)
element by value. -/
theorem c8_min_max_last_traversal_order :
    ∀ (K V : Type) [LinearOrder K] [LinearOrder V]
      (it : Iter K V) (ks : Keys K V) (vs : Values K V),
      it.min = it.drain.head? ∧
      it.max = it.drain.getLast? ∧
      it.last = it.drain.getLast? ∧
      ks.min = ks.drain.head? ∧
      ks.max = ks.drain.getLast? ∧
      ks.last = ks.drain.getLast? ∧
      vs.last = vs.drain.getLast? ∧
      (vs.inner ≠ [] → ∃ c, vs.min = some c ∧ c ∈ vs.inner ∧
        ∀ y ∈ vs.inner, c.val ≤ y.val) ∧
      (vs.inner ≠ [] → ∃ c, vs.max = some c ∧ c ∈ vs.inner ∧
        ∀ y ∈ vs.inner, y.val ≤ c.val) := by
  intro K V _ _ it ks vs
  refine ⟨?_, ?_, ?_, ?_, ?_, ?_, ?_, ?_, ?_⟩
  · rw [show it.drain = it.inner from listDrain_eq _]
    cases h : it.inner <;> simp [Iter.min, Iter.next, listNext, h]
  · rw [show it.drain = it.inner from listDrain_eq _]
    rfl
  · rw [show it.drain = it.inner from listDrain_eq _]
    rfl
  · rw [show ks.drain = ks.inner from listDrain_eq _]
    cases h : ks.inner <;> simp [Keys.min, Keys.next, listNext, h]
  · rw [show ks.drain = ks.inner from listDrain_eq _]
    rfl
  · rw [show ks.drain = ks.inner from listDrain_eq _]
    rfl
  · rw [show vs.drain = vs.inner from listDrain_eq _]
    rfl
  · intro hne
    match h : vs.inner with
    | [] => exact absurd h hne
    | c :: cs =>
      have hf := foldlMinByVal_spec c cs
      refine ⟨cs.foldl (fun acc y => if y.val < acc.val then y else acc) c,
        ?_, ?_, ?_⟩
      · simp [Values.min, listMinByVal, h]
      · exact hf.1
      · intro y hy
        rcases List.mem_cons.mp hy with hy | hy
        · exact hy ▸ hf.2.1
        · exact hf.2.2 y hy
  · intro hne
    match h : vs.inner with
    | [] => exact absurd h hne
    | c :: cs =>
      have hf := foldlMaxByVal_spec c cs
      refine ⟨cs.foldl (fun acc y => if acc.val ≤ y.val then y else acc) c,
        ?_, ?_, ?_⟩
      · simp [Values.max, listMaxByVal, h]
      · exact hf.1
      · intro y hy
        rcases List.mem_cons.mp hy with hy | hy
        · exact hy ▸ hf.2.1
        · exact hf.2.2 y hy

/-- Witness for the amended C8 on concrete two-element iterators. -/
theorem c8_min_max_last_traversal_order_witness :
    (⟨[(1, ⟨0, 5⟩), (2, ⟨1, 3⟩)]⟩ : Iter Nat Nat).min = some (1, ⟨0, 5⟩) ∧
    (⟨[(1, ⟨0, 5⟩), (2, ⟨1, 3⟩)]⟩ : Iter Nat Nat).max = some (2, ⟨1, 3⟩) ∧
    (⟨[1, 2]⟩ : Keys Nat Nat).last = some 2 ∧
    (∃ c, (⟨[⟨0, 5⟩, ⟨1, 3⟩]⟩ : Values Nat Nat).min = some c ∧
      c ∈ [(⟨0, 5⟩ : Cell Nat), ⟨1, 3⟩] ∧
      ∀ y ∈ [(⟨0, 5⟩ : Cell Nat), ⟨1, 3⟩], c.val ≤ y.val) := by
  have h := c8_min_max_last_traversal_order Nat Nat
    ⟨[(1, ⟨0, 5⟩), (2, ⟨1, 3⟩)]⟩ ⟨[1, 2]⟩ ⟨[⟨0, 5⟩, ⟨1, 3⟩]⟩
  exact ⟨by rw [h.1]; decide, by rw [h.2.1]; decide,
    by rw [h.2.2.2.2.2.1]; decide,
    h.2.2.2.2.2.2.2.1 (by decide)⟩

/-- C9: cloning a `PinnedList` or a `PinnedMap` copies the contents value
for value — equal keys and values — into freshly allocated cells whose
addresses are disjoint from the original's, and a cloned map starts with an
empty shadow list. -/
theorem c9_clone_independence :
    (∀ (T : Type) (l : PinnedList T) (σ : Nat), l.WF σ →
      (l.clone σ).1.sections.map Cell.val = l.sections.map Cell.val ∧
      (∀ c' ∈ (l.clone σ).1.sections, ∀ c ∈ l.sections, c'.addr ≠ c.addr)) ∧
    (∀ (K V : Type) [LinearOrder K] (m : PinnedMap K V) (σ : Nat),
      m.WFAddr σ →
      (m.clone σ).1.sections.map (fun p => (p.1, p.2.val))
        = m.sections.map (fun p => (p.1, p.2.val)) ∧
      (∀ p' ∈ (m.clone σ).1.sections, ∀ p ∈ m.sections, p'.2.addr ≠ p.2.addr) ∧
      (m.clone σ).1.shadowed = []) := by
  constructor
  · intro T l σ hwf
    constructor
    · show (allocCells σ (l.sections.map Cell.val)).1.map Cell.val = _
      rw [allocCells_map_val]
    · intro c' hc' c hc
      have h1 : σ ≤ c'.addr := mem_allocCells_addr hc'
      have h2 : c.addr < σ := hwf c hc
      omega
  · intro K V _ m σ hwf
    refine ⟨cloneSections_content σ m.sections, ?_, rfl⟩
    intro p' hp' p hp
    have h1 : σ ≤ p'.2.addr := mem_cloneSections_addr hp'
    have h2 : p.2.addr < σ := hwf p hp
    omega

/-- Witness for C9 on a one-element list and a one-entry map. -/
theorem c9_clone_independence_witness :
    ((⟨[⟨0, 5⟩], 1⟩ : PinnedList Nat).clone 1).1.sections.map Cell.val = [5] ∧
    (∀ c' ∈ ((⟨[⟨0, 5⟩], 1⟩ : PinnedList Nat).clone 1).1.sections,
      ∀ c ∈ (⟨[⟨0, 5⟩], 1⟩ : PinnedList Nat).sections, c'.addr ≠ c.addr) ∧
    ((⟨[(1, ⟨0, 10⟩)], [⟨9, 9⟩]⟩ : PinnedMap Nat Nat).clone 1).1.sections.map
      (fun p => (p.1, p.2.val)) = [(1, 10)] ∧
    ((⟨[(1, ⟨0, 10⟩)], [⟨9, 9⟩]⟩ : PinnedMap Nat Nat).clone 1).1.shadowed = [] := by
  have h1 := c9_clone_independence.1 Nat ⟨[⟨0, 5⟩], 1⟩ 1
    (by intro c hc; simp at hc; simp [hc])
  have h2 := c9_clone_independence.2 Nat Nat ⟨[(1, ⟨0, 10⟩)], [⟨9, 9⟩]⟩ 1
    (by intro p hp; simp at hp; simp [hp])
  exact ⟨h1.1.trans (by decide), h1.2, h2.1.trans (by decide), h2.2.2⟩

end PinnedBucket
